import Mathlib

/-!
Verification development for the dispatch-and-traversal encoding engine
(`codec/encode.go`).

The engine walks runtime values and emits abstract primitive write
operations to a pluggable wire-format driver.  We give a shallow embedding:

* Go runtime values relevant to encoding are modelled by the inductive
  `Value`.  A slice/map/pointer/interface/channel value can be nil
  (`Option.none`).  IEEE float payloads are modelled by their numeric value
  (an integer); the natural numeric order on those payloads matches Go's
  `<` on non-NaN floats, and NaN behaviour is floating-point detail outside
  the model.  Timestamps are modelled by an integer instant, so that
  chronological order is the integer order.
* The driver is abstract: encoding produces the list of primitive
  operations (`WireOp`) handed to the driver, in order.  The container
  tracker methods (`mapStart`, `mapElemKey`, ...) are modelled as emitting
  their corresponding abstract operation.
* Go's panic-based unwinding (`errorf`/`halt`) is modelled by `EncRes.err`,
  which also records the operations already emitted before the failure
  (partial output written to the sink is not retracted).
* Per-type metadata (`typeInfo`) is carried on the value: `StructTI` holds
  the field list in declaration order, the to-array flag, the struct key
  type and the missing-fielder flags; the map-by-slice flag `mbs` and the
  map key kind sit on the sequence/map constructors.
-/

/-- Abstract primitive operations of the `encDriver` interface
(`EncodeNil`, `EncodeInt`, ..., `WriteMapStart`, ...), plus the
container-tracker element separators (`WriteMapElemKey` etc.). -/
inductive WireOp where
  | wNil
  | wBool (b : Bool)
  | wInt (i : Int)
  | wUint (n : Nat)
  | wFloat32 (f : Int)
  | wFloat64 (f : Int)
  | wString (s : String)
  | wBytesRaw (bs : List Nat)
  | wTime (t : Int)
  | wMapStart (n : Nat)
  | wMapEnd
  | wArrayStart (n : Nat)
  | wArrayEnd
  | wMapElemKey
  | wMapElemValue
  | wArrayElem
deriving DecidableEq, Repr

/-- The error taxonomy of the encoder.  Each constructor corresponds to one
`errorf`/`halt` site of the source. -/
inductive EncErr where
  | malformedFlattenedSequence
  | circularReference
  | sendOnlyChannel
  | unsupportedValue
  | rawDisallowed
  | invalidKeyEncoding
deriving DecidableEq, Repr

/-- Encoding configuration (`EncodeOptions`), fixed for the lifetime of an
encoder.  `WriterBufferSize`, `ChanRecvTimeout`, `StringToRaw` and
`OptimumSize` only affect buffering, the real-time channel drain and the
byte-level driver, all abstracted away here. -/
structure EncodeOptions where
  StructToArray : Bool := false
  Canonical : Bool := false
  CheckCircularRef : Bool := false
  RecursiveEmptyCheck : Bool := false
  Raw : Bool := false
deriving DecidableEq, Repr

/-- The struct key encoding mode (`valueType` of `ti.keyType`): struct keys
are encoded as strings by default, or parsed as signed/unsigned/float. -/
inductive KeyTy where
  | ktString
  | ktInt
  | ktUint
  | ktFloat
deriving DecidableEq, Repr

/-- One struct field descriptor (`structFieldInfo`): the encoded key name
and the omit-if-empty flag.  The access path is modelled positionally: the
i-th descriptor of `StructTI.sfi` reads the i-th entry of the struct
value's field list. -/
structure FieldInfo where
  encName : String
  omitEmpty : Bool
deriving DecidableEq, Repr

/-- Per-struct-type descriptor (the struct-relevant part of `typeInfo`):
`sfi` is the field list in declaration order (`sfiSrc`), `toArray` the
per-type struct-as-array override, `keyType` the struct key encoding mode,
`flagMissingFielder` whether the type supplies extra dynamic fields and
`infoFieldOmitempty` the type's default omit-empty policy for those. -/
structure StructTI where
  sfi : List FieldInfo
  toArray : Bool := false
  keyType : KeyTy := .ktString
  flagMissingFielder : Bool := false
  infoFieldOmitempty : Bool := false
deriving DecidableEq, Repr

/-- The runtime kind of a map's key type (`f.ti.key.Kind()` as consumed by
`kMapCanonical`): `ktime` is the `time.Time` struct key case, and `kother`
covers every kind without a natural sort order (non-time structs,
interfaces, ...), which takes the out-of-band default branch. -/
inductive KKind where
  | kbool
  | kstring
  | kuint
  | kint
  | kfloat32
  | kfloat64
  | ktime
  | kother
deriving DecidableEq, Repr

/-- A Go runtime value as seen by the encoder.  `vBytes` is a `[]byte`
value (byte slices take the raw-bytes fast path), `vSlice`/`vArray` carry
the type's map-by-slice flag, `vMap` carries the key kind of its map type,
`vStruct` carries its type descriptor, its field values in declaration
order and the `CodecMissingFields()` result (consulted only when the
missing-fielder flag is set).  `vPtr` carries an abstract pointer identity
used by cycle detection.  `vChan` carries the receive capability,
map-by-slice flag, whether the element type is `byte`, and the list of
elements the (timeout-governed) drain yields — real-time drain behaviour
is abstracted to that resulting list.  `vOther` stands for values of a
runtime kind with no encoding strategy (complex, unsafe pointer), whose
codec function is `kErr`. -/
inductive Value where
  | vBool (b : Bool)
  | vInt (i : Int)
  | vUint (n : Nat)
  | vFloat32 (f : Int)
  | vFloat64 (f : Int)
  | vString (s : String)
  | vTime (t : Int)
  | vBytes (o : Option (List Nat))
  | vSlice (mbs : Bool) (o : Option (List Value))
  | vArray (mbs : Bool) (elems : List Value)
  | vMap (kk : KKind) (o : Option (List (Value × Value)))
  | vStruct (ti : StructTI) (fields : List Value) (mf : List (String × Value))
  | vPtr (id : Nat) (o : Option Value)
  | vIntf (o : Option Value)
  | vChan (canRecv : Bool) (mbs : Bool) (elemByte : Bool) (o : Option (List Value))
  | vFunc
  | vInvalid
  | vOther
deriving Repr

/-- Result of an encoding step: the operations emitted, or an abrupt
termination together with the operations already emitted before it
(partial output is not retracted). -/
inductive EncRes where
  | ok (out : List WireOp)
  | err (e : EncErr) (out : List WireOp)
deriving DecidableEq, Repr

/-- Sequencing of encoding steps: run `r`; on success run the
continuation, concatenating emitted operations; a failure keeps the
operations emitted so far and aborts. -/
def EncRes.seq (r : EncRes) (k : Unit → EncRes) : EncRes :=
  match r with
  | .ok o =>
    match k () with
    | .ok o2 => .ok (o ++ o2)
    | .err e o2 => .err e (o ++ o2)
  | .err e o => .err e o

/-- Whether an encoding step succeeded. -/
def EncRes.isOk : EncRes → Bool
  | .ok _ => true
  | .err _ _ => false

/-- The operations emitted by a successful step (empty on failure). -/
def EncRes.out : EncRes → List WireOp
  | .ok o => o
  | .err _ o => o

mutual

/-- Modelled from the spec (§4.2, §3): the helper `isEmptyValue` lives
outside the `encode.go` file set, so it is modelled from the spec's words:
a value is empty iff it is the type's zero value — `false`, `0`, nil
pointer/interface, or zero-length string/array/slice/map; under the
recursive mode the check descends into pointers/interfaces and checks
struct fields one by one, while the shallow mode compares only to the
type's zero value (a non-nil pointer is never shallowly empty). -/
def isEmptyValue (recur : Bool) : Value → Bool
  | .vBool b => b == false
  | .vInt i => i == 0
  | .vUint n => n == 0
  | .vFloat32 f => f == 0
  | .vFloat64 f => f == 0
  | .vString s => s == ""
  | .vTime t => t == 0
  | .vBytes o => match o with | none => true | some bs => bs.isEmpty
  | .vSlice _ o => match o with | none => true | some xs => xs.isEmpty
  | .vArray _ xs => xs.isEmpty
  | .vMap _ o => match o with | none => true | some es => es.isEmpty
  | .vStruct _ fields _ => allEmptyValues recur fields
  | .vPtr _ o =>
    match o with
    | none => true
    | some inner => recur && isEmptyValue recur inner
  | .vIntf o =>
    match o with
    | none => true
    | some inner => recur && isEmptyValue recur inner
  | .vChan _ _ _ o => match o with | none => true | some _ => false
  | .vFunc => false
  | .vInvalid => true
  | .vOther => false

/-- All values of a struct's field list are empty. -/
def allEmptyValues (recur : Bool) : List Value → Bool
  | [] => true
  | x :: xs => isEmptyValue recur x && allEmptyValues recur xs

end

/-- The kinds replaced by nil in struct array mode (`kStruct`'s switch:
Struct, Interface, Ptr, Array, Map, Slice).  `vBytes` is a slice and
`vTime` is a struct (`time.Time`) at the reflection level; channels and
primitives are not in the switch. -/
def isRefKind : Value → Bool
  | .vStruct _ _ _ => true
  | .vIntf _ => true
  | .vPtr _ _ => true
  | .vArray _ _ => true
  | .vMap _ _ => true
  | .vSlice _ _ => true
  | .vBytes _ => true
  | .vTime _ => true
  | _ => false

/-- Comparand extraction `k.Bool()` for canonical bool keys. -/
def keyBool : Value → Bool
  | .vBool b => b
  | _ => false

/-- Comparand extraction `k.String()` for string keys. -/
def keyString : Value → String
  | .vString s => s
  | _ => ""

/-- Comparand extraction `k.Uint()` for unsigned keys. -/
def keyUint : Value → Nat
  | .vUint n => n
  | _ => 0

/-- Comparand extraction `k.Int()` for signed integer keys. -/
def keyInt : Value → Int
  | .vInt i => i
  | _ => 0

/-- Comparand extraction `k.Float()` for float keys (modelled payload). -/
def keyFloat : Value → Int
  | .vFloat32 f => f
  | .vFloat64 f => f
  | _ => 0

/-- Comparand extraction for `time.Time` keys (the modelled instant). -/
def keyTime : Value → Int
  | .vTime t => t
  | _ => 0

/-- Byte extraction for a drained `chan byte` element. -/
def valByte : Value → Nat
  | .vUint n => n
  | _ => 0

/-- An injective key for `WireOp` into a lexicographic product, modelling
byte-level comparison of driver output: the wire bytes of one primitive
operation are abstracted by the operation itself, compared through this
key.  Used to order out-of-band-encoded canonical map keys. -/
def wireOpKey : WireOp → Lex (Nat × Lex (Int × Lex (String × List Nat)))
  | .wNil => toLex (0, toLex (0, toLex ("", [])))
  | .wBool b => toLex (1, toLex (if b then 1 else 0, toLex ("", [])))
  | .wInt i => toLex (2, toLex (i, toLex ("", [])))
  | .wUint n => toLex (3, toLex ((n : Int), toLex ("", [])))
  | .wFloat32 f => toLex (4, toLex (f, toLex ("", [])))
  | .wFloat64 f => toLex (5, toLex (f, toLex ("", [])))
  | .wString s => toLex (6, toLex (0, toLex (s, [])))
  | .wBytesRaw bs => toLex (7, toLex (0, toLex ("", bs)))
  | .wTime t => toLex (8, toLex (t, toLex ("", [])))
  | .wMapStart n => toLex (9, toLex ((n : Int), toLex ("", [])))
  | .wMapEnd => toLex (10, toLex (0, toLex ("", [])))
  | .wArrayStart n => toLex (11, toLex ((n : Int), toLex ("", [])))
  | .wArrayEnd => toLex (12, toLex (0, toLex ("", [])))
  | .wMapElemKey => toLex (13, toLex (0, toLex ("", [])))
  | .wMapElemValue => toLex (14, toLex (0, toLex ("", [])))
  | .wArrayElem => toLex (15, toLex (0, toLex ("", [])))

/-- Partial inverse of `wireOpKey`, used to prove injectivity. -/
def wireOpOfKey (k : Lex (Nat × Lex (Int × Lex (String × List Nat)))) : WireOp :=
  match (ofLex k).1, (ofLex (ofLex k).2).1, (ofLex (ofLex (ofLex k).2).2).1,
      (ofLex (ofLex (ofLex k).2).2).2 with
  | 0, _, _, _ => .wNil
  | 1, i, _, _ => .wBool (i == 1)
  | 2, i, _, _ => .wInt i
  | 3, i, _, _ => .wUint i.toNat
  | 4, i, _, _ => .wFloat32 i
  | 5, i, _, _ => .wFloat64 i
  | 6, _, s, _ => .wString s
  | 7, _, _, bs => .wBytesRaw bs
  | 8, i, _, _ => .wTime i
  | 9, i, _, _ => .wMapStart i.toNat
  | 10, _, _, _ => .wMapEnd
  | 11, i, _, _ => .wArrayStart i.toNat
  | 12, _, _, _ => .wArrayEnd
  | 13, _, _, _ => .wMapElemKey
  | 14, _, _, _ => .wMapElemValue
  | _, _, _, _ => .wArrayElem

theorem wireOpOfKey_wireOpKey : ∀ op, wireOpOfKey (wireOpKey op) = op := by
  intro op
  cases op <;> simp [wireOpKey, wireOpOfKey]
  case wBool b => cases b <;> simp

theorem wireOpKey_injective : Function.Injective wireOpKey :=
  Function.LeftInverse.injective wireOpOfKey_wireOpKey

/-- Linear order on abstract wire operations via the injective key; the
induced lexicographic order on operation lists models byte-lexicographic
comparison of encoded byte sequences. -/
instance : LinearOrder WireOp := LinearOrder.lift' wireOpKey wireOpKey_injective

/-- Lexicographic comparison of two (out-of-band encoded) operation
sequences, modelling `bytes.Compare`-based sorting. -/
def wireLexLe (a b : List WireOp) : Bool := decide (a ≤ b)

/-- Boolean order with `false` before `true` (`boolRvSlice.Less`). -/
def boolLe (a b : Bool) : Bool := !a || b

/-- Lexicographic byte order on strings (`stringRvSlice.Less`;
byte-wise comparison of UTF-8 strings agrees with the scalar order). -/
def nameLe (a b : String) : Bool := decide (a ≤ b)

/-- Size of the value components of a keyed list, the termination measure
for the emission loops that run over derived (filtered/sorted) pair
lists: each element counts one plus the size of its value component. -/
noncomputable def valSize {α : Type} (l : List (α × Value)) : Nat :=
  (l.map fun p => 1 + sizeOf p.2).sum

theorem valSize_nil {α : Type} : valSize ([] : List (α × Value)) = 0 := rfl

theorem valSize_cons {α : Type} (p : α × Value) (l : List (α × Value)) :
    valSize (p :: l) = 1 + sizeOf p.2 + valSize l := by
  simp [valSize]

theorem one_le_sizeOf_value : ∀ v : Value, 1 ≤ sizeOf v := by
  intro v
  cases v <;> simp <;> omega

theorem one_le_sizeOf_list {α : Type} [SizeOf α] : ∀ l : List α, 1 ≤ sizeOf l := by
  intro l
  cases l <;> simp <;> omega

theorem valSize_filter_le {α : Type} (p : α × Value → Bool) (l : List (α × Value)) :
    valSize (l.filter p) ≤ valSize l := by
  induction l with
  | nil => simp [valSize]
  | cons x xs ih =>
    rw [List.filter_cons]
    by_cases hx : p x
    · simp only [hx, if_true, valSize_cons]
      omega
    · simp only [hx, Bool.false_eq_true, if_false, valSize_cons]
      omega

theorem valSize_perm_eq {α : Type} {l₁ l₂ : List (α × Value)} (hp : l₁.Perm l₂) :
    valSize l₁ = valSize l₂ :=
  (hp.map (fun p : α × Value => 1 + sizeOf p.2)).sum_eq

theorem valSize_mergeSort_eq {α : Type} (l : List (α × Value)) (le : α × Value → α × Value → Bool) :
    valSize (l.mergeSort le) = valSize l :=
  valSize_perm_eq (List.mergeSort_perm l le)

theorem valSize_lt_sizeOf {α : Type} [SizeOf α] :
    ∀ l : List (α × Value), valSize l < sizeOf l := by
  intro l
  induction l with
  | nil => simp [valSize]
  | cons x xs ih =>
    rw [valSize_cons]
    rcases x with ⟨a, v⟩
    simp only [List.cons.sizeOf_spec, Prod.mk.sizeOf_spec]
    omega

theorem valSize_map_keyed {α β : Type} (g : α × Value → β) (l : List (α × Value)) :
    valSize (l.map fun p => (g p, p.2)) = valSize l := by
  induction l with
  | nil => rfl
  | cons x xs ih => simp [valSize_cons, ih]

theorem valSize_zip_lt {α : Type} [SizeOf α] (as : List α) :
    ∀ bs : List Value, valSize (as.zip bs) < sizeOf bs := by
  induction as with
  | nil =>
    intro bs
    simpa [valSize] using Nat.lt_of_lt_of_le Nat.zero_lt_one (one_le_sizeOf_list bs)
  | cons a as ih =>
    intro bs
    cases bs with
    | nil => simp [valSize]
    | cons b bs =>
      have := ih bs
      simp only [List.zip_cons_cons, valSize_cons, List.cons.sizeOf_spec]
      omega

theorem valSize_zipmap_lt {α : Type} [SizeOf α] (as : List α) :
    ∀ bs : List (Value × Value),
      valSize ((as.zip bs).map fun p => (p.1, p.2.2)) < sizeOf bs := by
  induction as with
  | nil =>
    intro bs
    simpa [valSize] using Nat.lt_of_lt_of_le Nat.zero_lt_one (one_le_sizeOf_list bs)
  | cons a as ih =>
    intro bs
    cases bs with
    | nil => simp [valSize]
    | cons b bs =>
      have := ih bs
      rcases b with ⟨k, v⟩
      simp only [List.zip_cons_cons, List.map_cons, valSize_cons, List.cons.sizeOf_spec,
        Prod.mk.sizeOf_spec]
      omega

theorem valSize_zip_adjust_lt {α : Type} [SizeOf α] (as : List α)
    (q : α × Value → Bool) :
    ∀ bs : List Value,
      valSize ((as.zip bs).map fun p => (p.1, if q p then Value.vInvalid else p.2)) < sizeOf bs := by
  induction as with
  | nil =>
    intro bs
    simpa [valSize] using Nat.lt_of_lt_of_le Nat.zero_lt_one (one_le_sizeOf_list bs)
  | cons a as ih =>
    intro bs
    cases bs with
    | nil => simp [valSize]
    | cons b bs =>
      have hb := one_le_sizeOf_value b
      have := ih bs
      by_cases hq : q (a, b) <;>
        simp only [List.zip_cons_cons, List.map_cons, valSize_cons, List.cons.sizeOf_spec, hq,
          if_true, Bool.false_eq_true, if_false] <;>
        (try simp only [Value.vInvalid.sizeOf_spec]) <;> omega

/-- Modelled from the spec (§4.1 step 1): the `isNil` helper consumed by
`encode` lives outside this file, detecting values whose runtime kind can
be nil (pointer, slice, map, channel) and are nil; the nil interface is
checked separately (`iv == nil`) by `encode`. -/
def isNil : Value → Bool
  | .vPtr _ none => true
  | .vSlice _ none => true
  | .vBytes none => true
  | .vMap _ none => true
  | .vChan _ _ _ none => true
  | _ => false

/-- The `iv == nil` test at the top of `encode`: the value is the nil
interface. -/
def isNilInterface : Value → Bool
  | .vIntf none => true
  | _ => false

/-- Modelled from the spec (§3, §4.2): the canonical field order `sfiSort`
is built by the external type-metadata builder as the declaration-order
field list sorted by encoded key name; together with the positional field
access `si.path.field(rv)` this yields the field/value pair list the
struct encoder iterates, in canonical or declaration order
(`kStructSfi`, lines 436-441). -/
def kStructSfiPairs (h : EncodeOptions) (ti : StructTI) (fields : List Value) :
    List (FieldInfo × Value) :=
  if h.Canonical then (ti.sfi.zip fields).mergeSort fun a b => nameLe a.1.encName b.1.encName
  else ti.sfi.zip fields

/-- Struct field key emission (`encStructFieldKey`, lines 1301-1321): a
string key is written as a string (the JSON fast quoting path is a driver
detail); for the numeric key modes the declared key text is parsed and the
number emitted, a parse failure being the fatal `InvalidKeyEncoding`
configuration error (Go's `strconv` parse is modelled by Lean's parsers). -/
def encStructFieldKey (encName : String) (keyType : KeyTy) : EncRes :=
  match keyType with
  | .ktString => .ok [.wString encName]
  | .ktInt =>
    match encName.toInt? with
    | some i => .ok [.wInt i]
    | none => .err .invalidKeyEncoding []
  | .ktUint =>
    match encName.toNat? with
    | some n => .ok [.wUint n]
    | none => .err .invalidKeyEncoding []
  | .ktFloat =>
    match encName.toInt? with
    | some f => .ok [.wFloat64 f]
    | none => .err .invalidKeyEncoding []

/-- Odd-length check for map-by-slice sequences (`haltOnMbsOddLen`,
lines 1287-1291): fails before anything is emitted. -/
def haltOnMbsOddLen (length : Nat) : EncRes :=
  if length % 2 != 0 then .err .malformedFlattenedSequence [] else .ok []


theorem prod_sizeOf_fst_lt {α β : Type} [SizeOf α] [SizeOf β] (p : α × β) :
    sizeOf p.1 < sizeOf p := by
  rcases p with ⟨a, b⟩
  simp only [Prod.mk.sizeOf_spec]
  omega

theorem prod_sizeOf_snd_lt {α β : Type} [SizeOf α] [SizeOf β] (p : α × β) :
    sizeOf p.2 < sizeOf p := by
  rcases p with ⟨a, b⟩
  simp only [Prod.mk.sizeOf_spec]
  omega

theorem valSize_map_le_of_snd {α β : Type} (f : α × Value → β × Value)
    (hf : ∀ p, sizeOf (f p).2 ≤ sizeOf p.2) (l : List (α × Value)) :
    valSize (l.map f) ≤ valSize l := by
  induction l with
  | nil => simp [valSize]
  | cons x xs ih =>
    have := hf x
    simp only [List.map_cons, valSize_cons]
    omega

theorem valSize_ite_lt {α : Type} [SizeOf α] (c : Prop) [Decidable c] (l : List (α × Value)) :
    valSize (if c then l else []) < sizeOf l := by
  split
  · exact valSize_lt_sizeOf l
  · simpa [valSize] using Nat.lt_of_lt_of_le Nat.zero_lt_one (one_le_sizeOf_list l)

theorem kStructSfiPairs_valSize_lt (h : EncodeOptions) (ti : StructTI) (fields : List Value) :
    valSize (kStructSfiPairs h ti fields) < sizeOf fields := by
  unfold kStructSfiPairs
  split
  · rw [valSize_mergeSort_eq]
    exact valSize_zip_lt _ _
  · exact valSize_zip_lt _ _

theorem decStepL {A B C : Nat} (h1 : A < B) : 8 * A < 8 * (B + C) + 4 := by omega

theorem decStepR {A B C : Nat} (h1 : A < C) : 8 * A < 8 * (B + C) + 4 := by omega

theorem decStepC {A B : Nat} (h1 : A < B) : 8 * A + 2 < 8 * B + 5 := by omega

theorem decStepM {A B : Nat} (h1 : A < B) : 8 * A < 8 * B + 3 := by omega


mutual

/-- The dispatch engine `encodeValue` (lines 1131-1199).  Resolves the
value's active representation: nil pointers/interfaces/slices/maps/
channels emit nil and return; a pointer is dereferenced, and when
`CheckCircularRef` is on and the pointee is a struct its identity is
checked against (and pushed onto) the cycle stack `ci` — the stack is
threaded as a parameter, so the pop after the pointee's encoding completes
is by construction; interfaces unwrap and re-resolve; invalid and func
values emit nil and return.  The codec-function lookup `e.h.fn` lives
outside this file, so the resolved built-in kind-based strategy (spec
§4.1 item 5, capability (7)) is inlined as the match below; custom
marshalers and extensions are not modelled.  `kErr` (lines 240-242), the
strategy of kinds that have none, is the `vOther` branch.  The array
walkers `kArrayWMbs`/`kArrayW` (lines 320-351) have bodies identical to
`kSliceWMbs`/`kSliceW` and are modelled by the same functions. -/
def encodeValue (h : EncodeOptions) (ci : List Nat) : Value → EncRes
  | .vPtr _ none => .ok [.wNil]
  | .vPtr id (some (.vStruct ti fields mf)) =>
    if h.CheckCircularRef then
      if id ∈ ci then .err .circularReference []
      else kStruct h (ci ++ [id]) ti fields mf
    else kStruct h ci ti fields mf
  | .vPtr _ (some inner) => encodeValue h ci inner
  | .vIntf none => .ok [.wNil]
  | .vIntf (some inner) => encodeValue h ci inner
  | .vSlice _ none => .ok [.wNil]
  | .vBytes none => .ok [.wNil]
  | .vMap _ none => .ok [.wNil]
  | .vChan _ _ _ none => .ok [.wNil]
  | .vInvalid => .ok [.wNil]
  | .vFunc => .ok [.wNil]
  | .vBool b => .ok [.wBool b]
  | .vInt i => .ok [.wInt i]
  | .vUint n => .ok [.wUint n]
  | .vFloat32 f => .ok [.wFloat32 f]
  | .vFloat64 f => .ok [.wFloat64 f]
  | .vString s => .ok [.wString s]
  | .vTime t => .ok [.wTime t]
  | .vBytes (some bs) => .ok [.wBytesRaw bs]
  | .vSlice true (some xs) => kSliceWMbs h ci xs
  | .vSlice false (some xs) => kSliceW h ci xs
  | .vArray true xs => kSliceWMbs h ci xs
  | .vArray false xs => kSliceW h ci xs
  | .vMap kk (some entries) => kMap h ci kk entries
  | .vStruct ti fields mf => kStruct h ci ti fields mf
  | .vChan canRecv mbs elemByte (some xs) => kChan h ci canRecv mbs elemByte xs
  | .vOther => .err .unsupportedValue []
termination_by v => 8 * sizeOf v
decreasing_by all_goals simp_wf; all_goals omega

/-- The `encode` entry body (lines 1022-1125), reached from
`Encode`/`MustEncode`: the nil interface and nil-able nil values emit nil;
then the concrete-type fast switch emits primitives directly, a non-nil
`*[]byte` emitting nil when the pointed-to slice is nil and the raw byte
string otherwise; everything else falls through to `encodeValue` (the
fastpath container switch, a performance twin of `encodeValue`, is
modelled by that fall-through; `Raw` values are not modelled). -/
def encode (h : EncodeOptions) (ci : List Nat) (iv : Value) : EncRes :=
  if isNilInterface iv then .ok [.wNil]
  else if isNil iv then .ok [.wNil]
  else
    match iv with
    | .vString s => .ok [.wString s]
    | .vBool b => .ok [.wBool b]
    | .vInt i => .ok [.wInt i]
    | .vUint n => .ok [.wUint n]
    | .vFloat32 f => .ok [.wFloat32 f]
    | .vFloat64 f => .ok [.wFloat64 f]
    | .vTime t => .ok [.wTime t]
    | .vBytes (some bs) => .ok [.wBytesRaw bs]
    | .vPtr _ (some (.vString s)) => .ok [.wString s]
    | .vPtr _ (some (.vBool b)) => .ok [.wBool b]
    | .vPtr _ (some (.vInt i)) => .ok [.wInt i]
    | .vPtr _ (some (.vUint n)) => .ok [.wUint n]
    | .vPtr _ (some (.vFloat32 f)) => .ok [.wFloat32 f]
    | .vPtr _ (some (.vFloat64 f)) => .ok [.wFloat64 f]
    | .vPtr _ (some (.vTime t)) => .ok [.wTime t]
    | .vPtr _ (some (.vBytes none)) => .ok [.wNil]
    | .vPtr _ (some (.vBytes (some bs))) => .ok [.wBytesRaw bs]
    | iv => encodeValue h ci iv
termination_by 8 * sizeOf iv + 1
decreasing_by all_goals simp_wf; all_goals omega

/-- The struct encoder `kStruct` (lines 468-563).  Map mode (the default,
forced by a missing-fielder type): walk the canonical- or declaration-
ordered fields, skipping omit-empty fields whose value is empty, clean the
extra dynamic fields (dropping empty names, and empty values under the
type's omit-empty policy), write the map header with the retained count
and emit key/value pairs — static fields first, then the extra fields.
Array mode: every declared field is emitted positionally, an empty
omit-empty field of reference kind being replaced by the invalid value
(encoded as nil).  The pooled scratch list `fkvs` is modelled by the
intermediate lists. -/
def kStruct (h : EncodeOptions) (ci : List Nat) (ti : StructTI) (fields : List Value)
    (mf : List (String × Value)) : EncRes :=
  let toMap := !(ti.toArray || h.StructToArray) || ti.flagMissingFielder
  let mfa := if ti.flagMissingFielder then mf else []
  let recur := h.RecursiveEmptyCheck
  if toMap then
    let fkvs := (kStructSfiPairs h ti fields).filter fun p =>
      !(p.1.omitEmpty && isEmptyValue recur p.2)
    let mfc := mfa.filter fun kv =>
      !(kv.1 == "") && !(ti.infoFieldOmitempty && isEmptyValue recur kv.2)
    EncRes.seq (.ok [.wMapStart (fkvs.length + mfc.length)]) fun _ =>
    EncRes.seq (encFkvs h ci ti.keyType fkvs) fun _ =>
    EncRes.seq (encMfKVs h ci ti.keyType mfc) fun _ =>
    .ok [.wMapEnd]
  else
    let fkvs := (ti.sfi.zip fields).map fun p =>
      (p.1, if p.1.omitEmpty && isEmptyValue recur p.2 && isRefKind p.2 then Value.vInvalid
        else p.2)
    EncRes.seq (.ok [.wArrayStart ti.sfi.length]) fun _ =>
    EncRes.seq (encArrElems h ci fkvs) fun _ =>
    .ok [.wArrayEnd]
termination_by 8 * (sizeOf fields + sizeOf mf) + 6
decreasing_by
  all_goals simp_wf
  · exact decStepL (lt_of_le_of_lt (valSize_filter_le _ _) (kStructSfiPairs_valSize_lt h ti fields))
  · exact decStepR (lt_of_le_of_lt (valSize_filter_le _ _) (valSize_ite_lt _ _))
  · refine decStepL (lt_of_le_of_lt (valSize_map_le_of_snd _ ?_ _) (valSize_zip_lt _ _))
    intro p
    dsimp only
    split
    · simpa using one_le_sizeOf_value p.2
    · exact le_refl _

/-- Static-field emission loop of `kStruct` map mode (lines 521-527):
element separator, field key, value separator, field value. -/
def encFkvs (h : EncodeOptions) (ci : List Nat) (kt : KeyTy) :
    List (FieldInfo × Value) → EncRes
  | [] => .ok []
  | p :: rest =>
    EncRes.seq (.ok [.wMapElemKey]) fun _ =>
    EncRes.seq (encStructFieldKey p.1.encName kt) fun _ =>
    EncRes.seq (.ok [.wMapElemValue]) fun _ =>
    EncRes.seq (encodeValue h ci p.2) fun _ =>
    encFkvs h ci kt rest
termination_by l => 8 * valSize l + 2
decreasing_by all_goals simp_wf; all_goals rw [valSize_cons]; all_goals omega

/-- Extra dynamic-field emission loop of `kStruct` map mode
(lines 529-534): the key is emitted like a field key, the value through
the generic `encode` (the Go map's iteration order is modelled by the
list order). -/
def encMfKVs (h : EncodeOptions) (ci : List Nat) (kt : KeyTy) :
    List (String × Value) → EncRes
  | [] => .ok []
  | kv :: rest =>
    EncRes.seq (.ok [.wMapElemKey]) fun _ =>
    EncRes.seq (encStructFieldKey kv.1 kt) fun _ =>
    EncRes.seq (.ok [.wMapElemValue]) fun _ =>
    EncRes.seq (encode h ci kv.2) fun _ =>
    encMfKVs h ci kt rest
termination_by l => 8 * valSize l + 2
decreasing_by all_goals simp_wf; all_goals rw [valSize_cons]; all_goals omega

/-- Positional emission loop of `kStruct` array mode (lines 551-556). -/
def encArrElems (h : EncodeOptions) (ci : List Nat) :
    List (FieldInfo × Value) → EncRes
  | [] => .ok []
  | p :: rest =>
    EncRes.seq (.ok [.wArrayElem]) fun _ =>
    EncRes.seq (encodeValue h ci p.2) fun _ =>
    encArrElems h ci rest
termination_by l => 8 * valSize l + 2
decreasing_by all_goals simp_wf; all_goals rw [valSize_cons]; all_goals omega

/-- The map encoder `kMap` (lines 565-633): write the map header; an empty
map closes immediately; canonical mode delegates to `kMapCanonical`;
otherwise entries are emitted in iteration order (modelled by the list
order), string keys through the string fast path. -/
def kMap (h : EncodeOptions) (ci : List Nat) (kk : KKind)
    (entries : List (Value × Value)) : EncRes :=
  EncRes.seq (.ok [.wMapStart entries.length]) fun _ =>
  if entries.length = 0 then .ok [.wMapEnd]
  else if h.Canonical then
    EncRes.seq (kMapCanonical h ci kk entries) fun _ => .ok [.wMapEnd]
  else
    EncRes.seq (encMapKVs h ci kk entries) fun _ => .ok [.wMapEnd]
termination_by 8 * sizeOf entries + 6
decreasing_by all_goals simp_wf; all_goals omega

/-- Natural-order emission loop of `kMap` (lines 620-629). -/
def encMapKVs (h : EncodeOptions) (ci : List Nat) (kk : KKind) :
    List (Value × Value) → EncRes
  | [] => .ok []
  | kv :: rest =>
    EncRes.seq (.ok [.wMapElemKey]) fun _ =>
    EncRes.seq (if kk = KKind.kstring then .ok [.wString (keyString kv.1)]
      else encodeValue h ci kv.1) fun _ =>
    EncRes.seq (.ok [.wMapElemValue]) fun _ =>
    EncRes.seq (encodeValue h ci kv.2) fun _ =>
    encMapKVs h ci kk rest
termination_by l => 8 * sizeOf l + 2
decreasing_by
  all_goals simp_wf
  all_goals try omega
  all_goals (have h1 := prod_sizeOf_fst_lt kv; have h2 := prod_sizeOf_snd_lt kv; omega)

/-- The canonical map encoder `kMapCanonical` (lines 635-772): capture the
keys, sort them with the key-kind comparator (`sort.Sort` guarantees a
sorted permutation; the model fixes the merge sort) and emit the sorted
key/value pairs; each comparand is extracted before sorting, as in the
`mksv` records.  Bool keys order false before true; string keys by
lexicographic byte order; unsigned/signed/float keys in numeric order;
`time.Time` keys chronologically.  Every other key kind takes the default
branch: each key is pre-encoded out-of-band by a fresh side encoder
(`NewEncoderBytes` + `MustEncode`, empty cycle stack), the pairs are
sorted by lexicographic comparison of the encoded sequences, and the
pre-encoded key bytes are written verbatim (`e.encWr.writeb`, modelled by
splicing the side trace). -/
def kMapCanonical (h : EncodeOptions) (ci : List Nat) (kk : KKind)
    (entries : List (Value × Value)) : EncRes :=
  match kk with
  | .kbool =>
    encCanonKVs h ci ((entries.mergeSort fun a b => boolLe (keyBool a.1) (keyBool b.1)).map
      fun kv => ([WireOp.wBool (keyBool kv.1)], kv.2))
  | .kstring =>
    encCanonKVs h ci ((entries.mergeSort fun a b => nameLe (keyString a.1) (keyString b.1)).map
      fun kv => ([WireOp.wString (keyString kv.1)], kv.2))
  | .kuint =>
    encCanonKVs h ci ((entries.mergeSort fun a b => decide (keyUint a.1 ≤ keyUint b.1)).map
      fun kv => ([WireOp.wUint (keyUint kv.1)], kv.2))
  | .kint =>
    encCanonKVs h ci ((entries.mergeSort fun a b => decide (keyInt a.1 ≤ keyInt b.1)).map
      fun kv => ([WireOp.wInt (keyInt kv.1)], kv.2))
  | .kfloat32 =>
    encCanonKVs h ci ((entries.mergeSort fun a b => decide (keyFloat a.1 ≤ keyFloat b.1)).map
      fun kv => ([WireOp.wFloat32 (keyFloat kv.1)], kv.2))
  | .kfloat64 =>
    encCanonKVs h ci ((entries.mergeSort fun a b => decide (keyFloat a.1 ≤ keyFloat b.1)).map
      fun kv => ([WireOp.wFloat64 (keyFloat kv.1)], kv.2))
  | .ktime =>
    encCanonKVs h ci ((entries.mergeSort fun a b => decide (keyTime a.1 ≤ keyTime b.1)).map
      fun kv => ([WireOp.wTime (keyTime kv.1)], kv.2))
  | .kother =>
    match canonKeysPre h entries with
    | .error e => .err e []
    | .ok traces =>
      encCanonKVs h ci (((traces.zip entries).map fun p => (p.1, p.2.2)).mergeSort
        fun a b => wireLexLe a.1 b.1)
termination_by 8 * sizeOf entries + 5
decreasing_by
  all_goals simp_wf
  all_goals try omega
  all_goals
    first
    | exact decStepM ((valSize_map_keyed _ _).trans_lt ((valSize_mergeSort_eq _ _).trans_lt
        (valSize_lt_sizeOf _)))
    | exact decStepM ((valSize_mergeSort_eq _ _).trans_lt (valSize_zipmap_lt _ _))

/-- Out-of-band pre-encoding of canonical map keys (default branch,
lines 751-762): each key runs through a fresh side encoder with an empty
cycle stack; a failing side encode aborts the whole encode before the
main stream receives anything further. -/
def canonKeysPre (h : EncodeOptions) : List (Value × Value) → Except EncErr (List (List WireOp))
  | [] => .ok []
  | kv :: rest =>
    match encodeValue h [] kv.1 with
    | .err e _ => .error e
    | .ok kops =>
      match canonKeysPre h rest with
      | .error e => .error e
      | .ok ts => .ok (kops :: ts)
termination_by l => 8 * sizeOf l + 2
decreasing_by
  all_goals simp_wf
  all_goals try omega
  all_goals (have h1 := prod_sizeOf_fst_lt kv; omega)

/-- Sorted-pair emission loop of `kMapCanonical`: element separator, the
key operations (primitive emission or spliced pre-encoded trace), value
separator, the value through the engine. -/
def encCanonKVs (h : EncodeOptions) (ci : List Nat) :
    List (List WireOp × Value) → EncRes
  | [] => .ok []
  | p :: rest =>
    EncRes.seq (.ok (WireOp.wMapElemKey :: p.1)) fun _ =>
    EncRes.seq (.ok [WireOp.wMapElemValue]) fun _ =>
    EncRes.seq (encodeValue h ci p.2) fun _ =>
    encCanonKVs h ci rest
termination_by l => 8 * valSize l + 2
decreasing_by all_goals simp_wf; all_goals rw [valSize_cons]; all_goals omega

/-- The sequence/channel encoder `kChan` (lines 353-369): a send-only
channel is a fatal error before any draining; a byte channel drains into
the scratch buffer and is emitted as a raw byte string; otherwise the
drained elements are encoded as a map-by-slice map or a plain sequence.
The timeout-governed drain `chanToSlice` is abstracted by the element
list carried on the value. -/
def kChan (h : EncodeOptions) (ci : List Nat) (canRecv mbs elemByte : Bool)
    (xs : List Value) : EncRes :=
  if !canRecv then .err .sendOnlyChannel []
  else if !mbs && elemByte then .ok [.wBytesRaw (xs.map valByte)]
  else if mbs then kSliceWMbs h ci xs
  else kSliceW h ci xs
termination_by 8 * sizeOf xs + 6
decreasing_by all_goals simp_wf; all_goals omega

/-- The map-by-slice sequence walker `kSliceWMbs` (lines 287-305): an
empty sequence is an empty map; otherwise the length must be even, the
map header declares half the length, and the elements alternate as map
keys and values. -/
def kSliceWMbs (h : EncodeOptions) (ci : List Nat) (xs : List Value) : EncRes :=
  if xs.length = 0 then EncRes.seq (.ok [.wMapStart 0]) fun _ => .ok [.wMapEnd]
  else
    EncRes.seq (haltOnMbsOddLen xs.length) fun _ =>
    EncRes.seq (.ok [.wMapStart (xs.length / 2)]) fun _ =>
    EncRes.seq (encMbsElems h ci 0 xs) fun _ =>
    .ok [.wMapEnd]
termination_by 8 * sizeOf xs + 5
decreasing_by all_goals simp_wf; all_goals omega

/-- Alternating key/value emission loop of `kSliceWMbs` (lines 295-302):
even positions are keys, odd positions values. -/
def encMbsElems (h : EncodeOptions) (ci : List Nat) (j : Nat) : List Value → EncRes
  | [] => .ok []
  | x :: rest =>
    EncRes.seq (.ok [if j % 2 = 0 then .wMapElemKey else .wMapElemValue]) fun _ =>
    EncRes.seq (encodeValue h ci x) fun _ =>
    encMbsElems h ci (j + 1) rest
termination_by xs => 8 * sizeOf xs + 2
decreasing_by all_goals simp_wf; all_goals omega

/-- The plain sequence walker `kSliceW` (lines 307-318): array header with
the length, elements in index order, array end. -/
def kSliceW (h : EncodeOptions) (ci : List Nat) (xs : List Value) : EncRes :=
  EncRes.seq (.ok [.wArrayStart xs.length]) fun _ =>
  EncRes.seq (encSeqElems h ci xs) fun _ =>
  .ok [.wArrayEnd]
termination_by 8 * sizeOf xs + 5
decreasing_by all_goals simp_wf; all_goals omega

/-- Element emission loop of `kSliceW` (lines 312-315). -/
def encSeqElems (h : EncodeOptions) (ci : List Nat) : List Value → EncRes
  | [] => .ok []
  | x :: rest =>
    EncRes.seq (.ok [.wArrayElem]) fun _ =>
    EncRes.seq (encodeValue h ci x) fun _ =>
    encSeqElems h ci rest
termination_by xs => 8 * sizeOf xs + 2
decreasing_by all_goals simp_wf; all_goals omega

end

/-- Events observable at the encoder boundary for the reentrancy model:
primitive operations, the driver's end-of-stream hook (`atEndOfEncode`)
and the writer flush (`e.w().end()`). -/
inductive EncEvent where
  | op (w : WireOp)
  | atEndOfEncode
  | flushEnd
deriving DecidableEq, Repr

/-- A tree of encode activity for the reentrancy model: `leaf` is an
encode body that only emits operations; `node` is an encode body that
performs nested `MustEncode` calls on the same encoder (as a custom
`CodecEncodeSelf` implementation may). -/
inductive EncCall where
  | leaf (ops : List WireOp)
  | node (subs : List EncCall)
deriving Repr

mutual

/-- The reentrancy logic of `MustEncode` (lines 997-1010) on the
non-panicking path: increment the reentrancy counter `e.calls`, run the
encode body, decrement, and fire the stream finalization — the driver's
`atEndOfEncode` hook followed by the writer flush — exactly when the
counter returns to zero.  The counter is the first component, the event
trace the second. -/
def MustEncode (calls : Nat) (c : EncCall) : Nat × List EncEvent :=
  let r := encBody (calls + 1) c
  if r.1 - 1 = 0 then (r.1 - 1, r.2 ++ [.atEndOfEncode, .flushEnd])
  else (r.1 - 1, r.2)
termination_by 2 * sizeOf c + 1
decreasing_by all_goals simp_wf; all_goals omega

/-- The `e.encode(v)` body run under a `MustEncode` call: a leaf emits its
operations; a node runs its nested `MustEncode` calls in order. -/
def encBody (calls : Nat) : EncCall → Nat × List EncEvent
  | .leaf ops => (calls, ops.map EncEvent.op)
  | .node subs => encSubs calls subs
termination_by c => 2 * sizeOf c
decreasing_by all_goals simp_wf; all_goals omega

/-- Sequencing of the nested `MustEncode` calls of a node body. -/
def encSubs (calls : Nat) : List EncCall → Nat × List EncEvent
  | [] => (calls, [])
  | c :: rest =>
    let r1 := MustEncode calls c
    let r2 := encSubs r1.1 rest
    (r2.1, r1.2 ++ r2.2)
termination_by l => 2 * sizeOf l
decreasing_by all_goals simp_wf; all_goals omega

end

theorem EncRes.seq_err (e : EncErr) (o : List WireOp) (k : Unit → EncRes) :
    (EncRes.err e o).seq k = .err e o := rfl

theorem EncRes.seq_ok_ok {k : Unit → EncRes} {o2 : List WireOp} (o : List WireOp)
    (hk : k () = .ok o2) : (EncRes.ok o).seq k = .ok (o ++ o2) := by
  simp [EncRes.seq, hk]

theorem EncRes.seq_ok_err {k : Unit → EncRes} {e : EncErr} {o2 : List WireOp} (o : List WireOp)
    (hk : k () = .err e o2) : (EncRes.ok o).seq k = .err e (o ++ o2) := by
  simp [EncRes.seq, hk]

theorem EncRes.isOk_iff {r : EncRes} : r.isOk = true ↔ ∃ o, r = .ok o := by
  cases r <;> simp [EncRes.isOk]

theorem EncRes.out_ok (o : List WireOp) : (EncRes.ok o).out = o := rfl

theorem encodeValue_vInvalid (h : EncodeOptions) (ci : List Nat) :
    encodeValue h ci .vInvalid = .ok [.wNil] := by
  simp [encodeValue]

/-- C6: for every value whose active representation is nil — a nil
pointer, nil interface, nil slice (generic or byte), nil map or nil
channel — `encodeValue` emits exactly the single nil primitive and
returns, so no container-specific handler receives a nil value. -/
theorem nil_values_encode_nil (h : EncodeOptions) (ci : List Nat) (id : Nat)
    (mbs canRecv elemByte : Bool) (kk : KKind) :
    encodeValue h ci (.vPtr id none) = .ok [.wNil] ∧
    encodeValue h ci (.vIntf none) = .ok [.wNil] ∧
    encodeValue h ci (.vSlice mbs none) = .ok [.wNil] ∧
    encodeValue h ci (.vBytes none) = .ok [.wNil] ∧
    encodeValue h ci (.vMap kk none) = .ok [.wNil] ∧
    encodeValue h ci (.vChan canRecv mbs elemByte none) = .ok [.wNil] := by
  refine ⟨?_, ?_, ?_, ?_, ?_, ?_⟩ <;> simp [encodeValue]

/-- C7 counterexample: a bare function value does not fail with an
UnsupportedValue error — `encodeValue` (lines 1173-1175) intercepts the
Func kind and emits the nil primitive instead, so `kErr` is never reached
for it. -/
theorem func_value_encodes_nil :
    encodeValue {} [] .vFunc = .ok [.wNil] ∧
    ∀ out, encodeValue {} [] .vFunc ≠ .err .unsupportedValue out := by
  constructor
  · simp [encodeValue]
  · intro out
    simp [encodeValue]

/-- C7 amended: a value of a runtime kind with no encoding strategy that
reaches the kind-based dispatch (complex, unsafe pointer — `vOther`,
whose codec function is `kErr`) fails with an UnsupportedValue error, but
a bare function value is intercepted by `encodeValue` and emitted as the
nil primitive, never reaching `kErr`. -/
theorem unsupported_kind_spec (h : EncodeOptions) (ci : List Nat) :
    encodeValue h ci .vOther = .err .unsupportedValue [] ∧
    encodeValue h ci .vFunc = .ok [.wNil] := by
  constructor <;> simp [encodeValue]

/-- C8: a non-nil channel with no receive capability fails with the
SendOnlyChannel error, with an empty partial output: the failure happens
before any draining result or driver operation is produced. -/
theorem send_only_channel_spec (h : EncodeOptions) (ci : List Nat)
    (mbs elemByte : Bool) (xs : List Value) :
    encodeValue h ci (.vChan false mbs elemByte (some xs)) = .err .sendOnlyChannel [] := by
  simp [encodeValue, kChan]

/-- C10: at the `encode` entry point, a non-nil `*[]byte` whose pointed-to
slice is nil emits the nil primitive while a non-nil pointed-to slice
(empty included) emits a raw byte string, and a nil `[]byte` passed
directly also emits the nil primitive — so a nil byte slice encodes
identically with or without the pointer indirection. -/
theorem ptr_byte_slice_spec (h : EncodeOptions) (ci : List Nat) (id : Nat) (bs : List Nat) :
    encode h ci (.vPtr id (some (.vBytes none))) = .ok [.wNil] ∧
    encode h ci (.vPtr id (some (.vBytes (some bs)))) = .ok [.wBytesRaw bs] ∧
    encode h ci (.vBytes none) = .ok [.wNil] ∧
    encode h ci (.vBytes (some bs)) = .ok [.wBytesRaw bs] ∧
    encode h ci (.vPtr id (some (.vBytes none))) = encode h ci (.vBytes none) := by
  refine ⟨?_, ?_, ?_, ?_, ?_⟩ <;> simp [encode, isNil, isNilInterface]

theorem EncRes.seq_ok_cons_ne_err_nil (a : WireOp) (o : List WireOp) (k : Unit → EncRes)
    (e : EncErr) : (EncRes.ok (a :: o)).seq k ≠ .err e [] := by
  unfold EncRes.seq
  cases k () <;> simp

theorem kStruct_ne_err_nil (h : EncodeOptions) (ci : List Nat) (ti : StructTI)
    (fields : List Value) (mf : List (String × Value)) (e : EncErr) :
    kStruct h ci ti fields mf ≠ .err e [] := by
  rw [kStruct]
  dsimp only
  split
  · exact EncRes.seq_ok_cons_ne_err_nil _ _ _ _
  · exact EncRes.seq_ok_cons_ne_err_nil _ _ _ _

/-- C5: with `CheckCircularRef` enabled, dereferencing a pointer to a
struct checks the pointer identity against the cycle stack and fails with
the CircularReference error exactly when the identity is already on the
stack; otherwise the struct is encoded with the identity pushed onto the
stack (the stack is threaded as a parameter, so it is restored — popped —
once the struct's encoding completes). -/
theorem circular_ref_spec (h : EncodeOptions) (hc : h.CheckCircularRef = true)
    (ci : List Nat) (id : Nat) (ti : StructTI) (fields : List Value)
    (mf : List (String × Value)) :
    (id ∈ ci ↔
      encodeValue h ci (.vPtr id (some (.vStruct ti fields mf))) = .err .circularReference []) ∧
    (id ∉ ci →
      encodeValue h ci (.vPtr id (some (.vStruct ti fields mf))) =
        kStruct h (ci ++ [id]) ti fields mf) := by
  constructor
  · constructor
    · intro hid
      simp [encodeValue, hc, hid]
    · intro heq
      by_contra hid
      simp [encodeValue, hc, hid] at heq
      exact kStruct_ne_err_nil h (ci ++ [id]) ti fields mf _ heq
  · intro hid
    simp [encodeValue, hc, hid]

/-- Number of stream-finalization events (driver end-of-stream hook or
writer flush) in an event trace. -/
def finCount (evs : List EncEvent) : Nat :=
  (evs.filter fun ev => ev == EncEvent.atEndOfEncode || ev == EncEvent.flushEnd).length

theorem finCount_append (a b : List EncEvent) :
    finCount (a ++ b) = finCount a + finCount b := by
  simp [finCount]

theorem finCount_map_op (ops : List WireOp) : finCount (ops.map EncEvent.op) = 0 := by
  induction ops with
  | nil => rfl
  | cons x xs ih => simpa [finCount] using ih

mutual

theorem MustEncode_fst : ∀ (calls : Nat) (c : EncCall), (MustEncode calls c).1 = calls := by
  intro calls c
  rw [MustEncode]
  have hb := encBody_fst (calls + 1) c
  split <;> simp <;> omega
termination_by calls c => 2 * sizeOf c + 1
decreasing_by all_goals simp_wf; all_goals omega

theorem encBody_fst : ∀ (calls : Nat) (c : EncCall), (encBody calls c).1 = calls := by
  intro calls c
  match c with
  | .leaf ops => rw [encBody]
  | .node subs =>
    rw [encBody]
    exact encSubs_fst calls subs
termination_by calls c => 2 * sizeOf c
decreasing_by all_goals simp_wf; all_goals omega

theorem encSubs_fst : ∀ (calls : Nat) (l : List EncCall), (encSubs calls l).1 = calls := by
  intro calls l
  match l with
  | [] => rw [encSubs]
  | c :: rest =>
    rw [encSubs]
    dsimp only
    rw [encSubs_fst (MustEncode calls c).1 rest, MustEncode_fst calls c]
termination_by calls l => 2 * sizeOf l
decreasing_by all_goals simp_wf; all_goals omega

end

mutual

theorem MustEncode_finCount_pos : ∀ (calls : Nat) (c : EncCall), 1 ≤ calls →
    finCount (MustEncode calls c).2 = 0 := by
  intro calls c hc
  rw [MustEncode]
  have hb1 : (encBody (calls + 1) c).1 = calls + 1 := encBody_fst (calls + 1) c
  have hb2 : finCount (encBody (calls + 1) c).2 = 0 := encBody_finCount_pos (calls + 1) c (by omega)
  split
  · omega
  · simpa using hb2
termination_by calls c _ => 2 * sizeOf c + 1
decreasing_by all_goals simp_wf; all_goals omega

theorem encBody_finCount_pos : ∀ (calls : Nat) (c : EncCall), 1 ≤ calls →
    finCount (encBody calls c).2 = 0 := by
  intro calls c hc
  match c with
  | .leaf ops =>
    rw [encBody]
    exact finCount_map_op ops
  | .node subs =>
    rw [encBody]
    exact encSubs_finCount_pos calls subs hc
termination_by calls c _ => 2 * sizeOf c
decreasing_by all_goals simp_wf; all_goals omega

theorem encSubs_finCount_pos : ∀ (calls : Nat) (l : List EncCall), 1 ≤ calls →
    finCount (encSubs calls l).2 = 0 := by
  intro calls l hc
  match l with
  | [] => rw [encSubs]; rfl
  | c :: rest =>
    rw [encSubs]
    dsimp only
    rw [finCount_append, MustEncode_finCount_pos calls c hc, MustEncode_fst calls c,
      encSubs_finCount_pos calls rest hc]
termination_by calls l _ => 2 * sizeOf l
decreasing_by all_goals simp_wf; all_goals omega

end

/-- C9: for every tree of nested encode calls on one encoder, the
reentrancy counter is incremented on entry to and decremented on exit
from each `MustEncode` call (so each call returns the counter to its
entry value); a nested call — one entered with the counter already
positive — never produces a finalization event; and the outermost call
(entered with counter `0`) ends with the counter at `0` and fires the
stream finalization (the driver end-of-stream hook then the writer
flush) exactly once, at the very end of its trace. -/
theorem reentrancy_finalization_spec :
    (∀ (calls : Nat) (c : EncCall), (MustEncode calls c).1 = calls) ∧
    (∀ (calls : Nat) (c : EncCall), 1 ≤ calls → finCount (MustEncode calls c).2 = 0) ∧
    (∀ c : EncCall, ∃ evs,
      MustEncode 0 c = (0, evs ++ [EncEvent.atEndOfEncode, EncEvent.flushEnd]) ∧
      finCount evs = 0) := by
  refine ⟨MustEncode_fst, MustEncode_finCount_pos, ?_⟩
  intro c
  refine ⟨(encBody 1 c).2, ?_, encBody_finCount_pos 1 c (by omega)⟩
  rw [MustEncode]
  have hb1 : (encBody (0 + 1) c).1 = 0 + 1 := encBody_fst (0 + 1) c
  split
  · rw [hb1]
  · omega

/-- Witness for C9 at a concrete nested call. -/
theorem reentrancy_finalization_spec_witness :
    1 ≤ 1 ∧ finCount (MustEncode 1 (.leaf [.wNil])).2 = 0 :=
  ⟨by decide, reentrancy_finalization_spec.2.1 1 (.leaf [.wNil]) (by decide)⟩

/-- Witness for C5: a pointer identity already on the cycle stack fails
with the CircularReference error. -/
theorem circular_ref_spec_witness :
    encodeValue { CheckCircularRef := true } [5]
      (.vPtr 5 (some (.vStruct { sfi := [] } [] []))) = .err .circularReference [] :=
  (circular_ref_spec { CheckCircularRef := true } rfl [5] 5 { sfi := [] } [] []).1.mp
    (by decide)

theorem encMbsElems_even_spec (h : EncodeOptions) (ci : List Nat) :
    ∀ (xs : List Value), xs.length % 2 = 0 →
      (∀ x ∈ xs, (encodeValue h ci x).isOk = true) →
      ∀ j, j % 2 = 0 →
        encMbsElems h ci j xs = .ok ((List.range (xs.length / 2)).flatMap fun i =>
          .wMapElemKey :: (encodeValue h ci (xs.getD (2 * i) .vInvalid)).out ++
          .wMapElemValue :: (encodeValue h ci (xs.getD (2 * i + 1) .vInvalid)).out) := by
  intro xs
  match xs with
  | [] =>
    intro _ _ j _
    rw [encMbsElems]
    simp
  | [x] =>
    intro hlen
    simp at hlen
  | x :: y :: rest =>
    intro hlen hok j hj
    have hrest : rest.length % 2 = 0 := by
      simp only [List.length_cons] at hlen
      omega
    obtain ⟨ox, hox⟩ := EncRes.isOk_iff.mp (hok x (by simp))
    obtain ⟨oy, hoy⟩ := EncRes.isOk_iff.mp (hok y (by simp))
    have ih := encMbsElems_even_spec h ci rest hrest
      (fun z hz => hok z (by simp [hz])) (j + 2) (by omega)
    have hj1 : ¬((j + 1) % 2 = 0) := by omega
    rw [encMbsElems]
    rw [encMbsElems]
    have hgd0 : ∀ i, (x :: y :: rest).getD (2 * (i + 1)) .vInvalid = rest.getD (2 * i) .vInvalid := by
      intro i
      have h2 : 2 * (i + 1) = 2 * i + 1 + 1 := by omega
      rw [h2, List.getD_cons_succ, List.getD_cons_succ]
    have hgd1 : ∀ i,
        (x :: y :: rest).getD (2 * (i + 1) + 1) .vInvalid = rest.getD (2 * i + 1) .vInvalid := by
      intro i
      have h2 : 2 * (i + 1) + 1 = 2 * i + 1 + 1 + 1 := by omega
      rw [h2, List.getD_cons_succ, List.getD_cons_succ]
    have hlen2 : (x :: y :: rest).length / 2 = rest.length / 2 + 1 := by
      simp only [List.length_cons]
      omega
    rw [hlen2, List.range_succ_eq_map]
    simp only [List.flatMap_cons, List.flatMap_map, if_pos hj, if_neg hj1, hox, hoy,
      EncRes.seq, ih]
    simp only [Nat.succ_eq_add_one, hgd0, hgd1, Nat.mul_zero, List.getD_cons_zero,
      List.getD_cons_succ, EncRes.out]
    simp [hox, hoy]
termination_by xs => xs.length

theorem kSliceWMbs_odd (h : EncodeOptions) (ci : List Nat) (xs : List Value)
    (hodd : xs.length % 2 = 1) :
    kSliceWMbs h ci xs = .err .malformedFlattenedSequence [] := by
  rw [kSliceWMbs]
  have h0 : ¬xs.length = 0 := by omega
  rw [if_neg h0]
  have hh : haltOnMbsOddLen xs.length = .err .malformedFlattenedSequence [] := by
    simp [haltOnMbsOddLen, hodd]
  rw [hh, EncRes.seq_err]

theorem kSliceWMbs_even (h : EncodeOptions) (ci : List Nat) (xs : List Value)
    (heven : xs.length % 2 = 0) (hok : ∀ x ∈ xs, (encodeValue h ci x).isOk = true) :
    kSliceWMbs h ci xs = .ok ([.wMapStart (xs.length / 2)] ++
      ((List.range (xs.length / 2)).flatMap fun i =>
        .wMapElemKey :: (encodeValue h ci (xs.getD (2 * i) .vInvalid)).out ++
        .wMapElemValue :: (encodeValue h ci (xs.getD (2 * i + 1) .vInvalid)).out) ++
      [.wMapEnd]) := by
  rw [kSliceWMbs]
  by_cases h0 : xs.length = 0
  · have hxs : xs = [] := List.length_eq_zero.mp h0
    subst hxs
    simp [EncRes.seq]
  · rw [if_neg h0]
    have hh : haltOnMbsOddLen xs.length = .ok [] := by
      simp [haltOnMbsOddLen, heven]
    have hm := encMbsElems_even_spec h ci xs heven hok 0 (by omega)
    rw [hh, hm]
    simp [EncRes.seq]

/-- C1: a map-by-slice sequence (slice or fixed array with the
map-by-slice flag) of odd length fails with the
MalformedFlattenedSequence error before anything is emitted; for an even
length (with every element encodable), a wire map of `length / 2` pairs
is emitted in which element `2*i` is the key and element `2*i + 1` the
value of pair `i`, in index order.  (A nil map-by-slice slice never
reaches this walker: by the nil rule it encodes as the nil primitive,
claim C6.) -/
theorem mbs_flattened_map_spec (h : EncodeOptions) (ci : List Nat) (xs : List Value) :
    (xs.length % 2 = 1 →
      encodeValue h ci (.vSlice true (some xs)) = .err .malformedFlattenedSequence [] ∧
      encodeValue h ci (.vArray true xs) = .err .malformedFlattenedSequence []) ∧
    (xs.length % 2 = 0 →
      (∀ x ∈ xs, (encodeValue h ci x).isOk = true) →
      encodeValue h ci (.vSlice true (some xs)) =
        .ok ([.wMapStart (xs.length / 2)] ++
          ((List.range (xs.length / 2)).flatMap fun i =>
            .wMapElemKey :: (encodeValue h ci (xs.getD (2 * i) .vInvalid)).out ++
            .wMapElemValue :: (encodeValue h ci (xs.getD (2 * i + 1) .vInvalid)).out) ++
          [.wMapEnd]) ∧
      encodeValue h ci (.vArray true xs) =
        .ok ([.wMapStart (xs.length / 2)] ++
          ((List.range (xs.length / 2)).flatMap fun i =>
            .wMapElemKey :: (encodeValue h ci (xs.getD (2 * i) .vInvalid)).out ++
            .wMapElemValue :: (encodeValue h ci (xs.getD (2 * i + 1) .vInvalid)).out) ++
          [.wMapEnd])) := by
  have hs : encodeValue h ci (.vSlice true (some xs)) = kSliceWMbs h ci xs := by
    simp [encodeValue]
  have ha : encodeValue h ci (.vArray true xs) = kSliceWMbs h ci xs := by
    simp [encodeValue]
  constructor
  · intro hodd
    rw [hs, ha, kSliceWMbs_odd h ci xs hodd]
    exact ⟨rfl, rfl⟩
  · intro heven hok
    rw [hs, ha, kSliceWMbs_even h ci xs heven hok]
    exact ⟨rfl, rfl⟩

/-- Witness for C1: a 3-element map-by-slice input fails with
MalformedFlattenedSequence; a 4-element one encodes successfully. -/
theorem mbs_flattened_map_spec_witness :
    encodeValue {} [] (.vSlice true (some [.vString "a", .vInt 1, .vString "b"])) =
      .err .malformedFlattenedSequence [] ∧
    (encodeValue {} []
      (.vSlice true (some [.vString "a", .vInt 1, .vString "b", .vInt 2]))).isOk = true := by
  constructor
  · exact ((mbs_flattened_map_spec {} [] _).1 (by decide)).1
  · rw [((mbs_flattened_map_spec {} [] _).2 (by decide) ?hok).1]
    · rfl
    case hok =>
      intro x hx
      fin_cases hx <;> simp [encodeValue, EncRes.isOk]

theorem encArrElems_ok (h : EncodeOptions) (ci : List Nat) :
    ∀ l : List (FieldInfo × Value), (∀ p ∈ l, (encodeValue h ci p.2).isOk = true) →
      encArrElems h ci l = .ok (l.flatMap fun p => .wArrayElem :: (encodeValue h ci p.2).out) := by
  intro l
  induction l with
  | nil =>
    intro _
    rw [encArrElems]
    simp
  | cons p rest ih =>
    intro hok
    obtain ⟨o, ho⟩ := EncRes.isOk_iff.mp (hok p (by simp))
    rw [encArrElems]
    rw [ih fun q hq => hok q (by simp [hq])]
    simp [EncRes.seq, ho, EncRes.out]

theorem encFkvs_ok (h : EncodeOptions) (ci : List Nat) (kt : KeyTy) :
    ∀ l : List (FieldInfo × Value),
      (∀ p ∈ l, (encStructFieldKey p.1.encName kt).isOk = true) →
      (∀ p ∈ l, (encodeValue h ci p.2).isOk = true) →
      encFkvs h ci kt l = .ok (l.flatMap fun p =>
        .wMapElemKey :: (encStructFieldKey p.1.encName kt).out ++
        .wMapElemValue :: (encodeValue h ci p.2).out) := by
  intro l
  induction l with
  | nil =>
    intro _ _
    rw [encFkvs]
    simp
  | cons p rest ih =>
    intro hkey hok
    obtain ⟨ok1, hk1⟩ := EncRes.isOk_iff.mp (hkey p (by simp))
    obtain ⟨o, ho⟩ := EncRes.isOk_iff.mp (hok p (by simp))
    rw [encFkvs]
    rw [ih (fun q hq => hkey q (by simp [hq])) (fun q hq => hok q (by simp [hq]))]
    simp [EncRes.seq, ho, hk1, EncRes.out]

theorem kStruct_array_spec (h : EncodeOptions) (ci : List Nat) (ti : StructTI)
    (fields : List Value) (mf : List (String × Value))
    (harr : (ti.toArray || h.StructToArray) = true)
    (hmf : ti.flagMissingFielder = false)
    (hok : ∀ p ∈ ti.sfi.zip fields,
      (p.1.omitEmpty && isEmptyValue h.RecursiveEmptyCheck p.2 && isRefKind p.2) = false →
      (encodeValue h ci p.2).isOk = true) :
    kStruct h ci ti fields mf = .ok ([.wArrayStart ti.sfi.length] ++
      ((ti.sfi.zip fields).flatMap fun p =>
        .wArrayElem ::
          (if (p.1.omitEmpty && isEmptyValue h.RecursiveEmptyCheck p.2 && isRefKind p.2) = true
            then [.wNil] else (encodeValue h ci p.2).out)) ++
      [.wArrayEnd]) := by
  rw [kStruct]
  simp only [harr, hmf, Bool.not_true, Bool.false_or, Bool.or_false, if_false,
    Bool.false_eq_true]
  rw [encArrElems_ok h ci _ ?hall]
  case hall =>
    intro q hq
    obtain ⟨p, hp, rfl⟩ := List.mem_map.mp hq
    by_cases hc : (p.1.omitEmpty && isEmptyValue h.RecursiveEmptyCheck p.2 && isRefKind p.2) = true
    · simp [hc, encodeValue_vInvalid, EncRes.isOk]
    · simp only [hc, if_false, Bool.false_eq_true]
      exact hok p hp (by revert hc; cases (p.1.omitEmpty && isEmptyValue h.RecursiveEmptyCheck p.2 && isRefKind p.2) <;> simp)
  rw [List.flatMap_map]
  have hpt : ∀ p : FieldInfo × Value,
      (WireOp.wArrayElem ::
        (encodeValue h ci
          (if (p.1.omitEmpty && isEmptyValue h.RecursiveEmptyCheck p.2 && isRefKind p.2) = true
            then Value.vInvalid else p.2)).out) =
      (WireOp.wArrayElem ::
        (if (p.1.omitEmpty && isEmptyValue h.RecursiveEmptyCheck p.2 && isRefKind p.2) = true
          then [.wNil] else (encodeValue h ci p.2).out)) := by
    intro p
    by_cases hc : (p.1.omitEmpty && isEmptyValue h.RecursiveEmptyCheck p.2 && isRefKind p.2) = true
    · simp [hc, encodeValue_vInvalid, EncRes.out]
    · simp [hc]
  simp only [hpt]
  simp [EncRes.seq]

/-- C3: a struct encoded in array mode (struct-to-array option or
per-type override, no missing-fielder) emits a sequence with exactly one
element per declared static field, in declaration order, regardless of
emptiness and omit-empty flags; an empty omit-empty field whose kind is
struct, interface, pointer, array, map or slice is emitted as the nil
primitive, and an empty primitive field passes through the ordinary
encoding of its value — which, the value being the type's zero value, is
the literal zero (the trailing clauses). -/
theorem struct_array_mode_spec (h : EncodeOptions) (ci : List Nat) (ti : StructTI)
    (fields : List Value) (mf : List (String × Value))
    (harr : (ti.toArray || h.StructToArray) = true)
    (hmf : ti.flagMissingFielder = false)
    (hlen : fields.length = ti.sfi.length)
    (hok : ∀ p ∈ ti.sfi.zip fields,
      (p.1.omitEmpty && isEmptyValue h.RecursiveEmptyCheck p.2 && isRefKind p.2) = false →
      (encodeValue h ci p.2).isOk = true) :
    (encodeValue h ci (.vStruct ti fields mf) = .ok ([.wArrayStart ti.sfi.length] ++
      ((ti.sfi.zip fields).flatMap fun p =>
        .wArrayElem ::
          (if (p.1.omitEmpty && isEmptyValue h.RecursiveEmptyCheck p.2 && isRefKind p.2) = true
            then [.wNil] else (encodeValue h ci p.2).out)) ++
      [.wArrayEnd])) ∧
    (ti.sfi.zip fields).length = ti.sfi.length ∧
    (∀ b, isEmptyValue h.RecursiveEmptyCheck (.vBool b) = true →
      encodeValue h ci (.vBool b) = .ok [.wBool false]) ∧
    (∀ i, isEmptyValue h.RecursiveEmptyCheck (.vInt i) = true →
      encodeValue h ci (.vInt i) = .ok [.wInt 0]) ∧
    (∀ n, isEmptyValue h.RecursiveEmptyCheck (.vUint n) = true →
      encodeValue h ci (.vUint n) = .ok [.wUint 0]) ∧
    (∀ f, isEmptyValue h.RecursiveEmptyCheck (.vFloat32 f) = true →
      encodeValue h ci (.vFloat32 f) = .ok [.wFloat32 0]) ∧
    (∀ f, isEmptyValue h.RecursiveEmptyCheck (.vFloat64 f) = true →
      encodeValue h ci (.vFloat64 f) = .ok [.wFloat64 0]) ∧
    (∀ s, isEmptyValue h.RecursiveEmptyCheck (.vString s) = true →
      encodeValue h ci (.vString s) = .ok [.wString ""]) := by
  refine ⟨?_, ?_, ?_, ?_, ?_, ?_, ?_, ?_⟩
  · have hs : encodeValue h ci (.vStruct ti fields mf) = kStruct h ci ti fields mf := by
      simp [encodeValue]
    rw [hs, kStruct_array_spec h ci ti fields mf harr hmf hok]
  · simp [hlen]
  · intro b hb
    have : b = false := by simpa [isEmptyValue] using hb
    subst this
    simp [encodeValue]
  · intro i hi
    have : i = 0 := by simpa [isEmptyValue] using hi
    subst this
    simp [encodeValue]
  · intro n hn
    have : n = 0 := by simpa [isEmptyValue] using hn
    subst this
    simp [encodeValue]
  · intro f hf
    have : f = 0 := by simpa [isEmptyValue] using hf
    subst this
    simp [encodeValue]
  · intro f hf
    have : f = 0 := by simpa [isEmptyValue] using hf
    subst this
    simp [encodeValue]
  · intro s hs
    have : s = "" := by simpa [isEmptyValue] using hs
    subst this
    simp [encodeValue]

/-- Witness for C3: a two-field struct in array mode, the first field an
empty omit-empty pointer, encodes successfully (to a two-element
sequence). -/
theorem struct_array_mode_spec_witness :
    (encodeValue {} [] (.vStruct { sfi := [⟨"x", true⟩, ⟨"y", false⟩], toArray := true }
      [Value.vPtr 7 none, Value.vInt 5] [])).isOk = true := by
  rw [(struct_array_mode_spec {} [] _ _ _ (by decide) (by decide) (by decide) ?hok).1]
  · rfl
  case hok =>
    intro p hp
    fin_cases hp <;> intro hc
    · simp [isEmptyValue, isRefKind] at hc
    · simp [encodeValue, EncRes.isOk]

theorem kStructSfiPairs_perm (h : EncodeOptions) (ti : StructTI) (fields : List Value) :
    (kStructSfiPairs h ti fields).Perm (ti.sfi.zip fields) := by
  unfold kStructSfiPairs
  split
  · exact List.mergeSort_perm _ _
  · exact List.Perm.refl _

theorem kStructSfiPairs_sorted (h : EncodeOptions) (ti : StructTI) (fields : List Value)
    (hc : h.Canonical = true) :
    (kStructSfiPairs h ti fields).Pairwise fun a b => a.1.encName ≤ b.1.encName := by
  unfold kStructSfiPairs
  rw [if_pos hc]
  have htrans : ∀ a b c : FieldInfo × Value, nameLe a.1.encName b.1.encName = true →
      nameLe b.1.encName c.1.encName = true → nameLe a.1.encName c.1.encName = true := by
    intro a b c hab hbc
    simp only [nameLe, decide_eq_true_eq] at *
    exact le_trans hab hbc
  have htotal : ∀ a b : FieldInfo × Value,
      (nameLe a.1.encName b.1.encName || nameLe b.1.encName a.1.encName) = true := by
    intro a b
    simp only [nameLe, Bool.or_eq_true, decide_eq_true_eq]
    exact le_total _ _
  have hs := List.sorted_mergeSort htrans htotal (ti.sfi.zip fields)
  exact hs.imp fun hab => by simpa [nameLe, decide_eq_true_eq] using hab

/-- C4: a struct encoded in map mode (the default; no missing-fielder),
walked in canonical (sorted-by-key) order when the canonical option is
set and in declaration order otherwise: every field whose omit-if-empty
flag is set and whose value is empty (per the shallow or recursive
emptiness test selected by `RecursiveEmptyCheck`) is absent from the
output, and every retained field is emitted as its declared key followed
by its value, under a map header counting exactly the retained fields. -/
theorem struct_map_mode_spec (h : EncodeOptions) (ci : List Nat) (ti : StructTI)
    (fields : List Value) (mf : List (String × Value))
    (hmap : (ti.toArray || h.StructToArray) = false)
    (hmf : ti.flagMissingFielder = false)
    (hkey : ∀ si ∈ ti.sfi, (encStructFieldKey si.encName ti.keyType).isOk = true)
    (hvals : ∀ p ∈ ti.sfi.zip fields,
      (p.1.omitEmpty && isEmptyValue h.RecursiveEmptyCheck p.2) = false →
      (encodeValue h ci p.2).isOk = true) :
    ∃ ord : List (FieldInfo × Value),
      ord.Perm (ti.sfi.zip fields) ∧
      (h.Canonical = true → ord.Pairwise fun a b => a.1.encName ≤ b.1.encName) ∧
      (h.Canonical = false → ord = ti.sfi.zip fields) ∧
      encodeValue h ci (.vStruct ti fields mf) =
        .ok ([.wMapStart (ord.filter fun p =>
            !(p.1.omitEmpty && isEmptyValue h.RecursiveEmptyCheck p.2)).length] ++
          ((ord.filter fun p =>
            !(p.1.omitEmpty && isEmptyValue h.RecursiveEmptyCheck p.2)).flatMap fun p =>
            .wMapElemKey :: (encStructFieldKey p.1.encName ti.keyType).out ++
            .wMapElemValue :: (encodeValue h ci p.2).out) ++
          [.wMapEnd]) := by
  refine ⟨kStructSfiPairs h ti fields, kStructSfiPairs_perm h ti fields,
    fun hc => kStructSfiPairs_sorted h ti fields hc, ?_, ?_⟩
  · intro hnc
    simp [kStructSfiPairs, hnc]
  · have hs : encodeValue h ci (.vStruct ti fields mf) = kStruct h ci ti fields mf := by
      simp [encodeValue]
    rw [hs, kStruct]
    simp only [hmap, hmf, Bool.not_false, Bool.true_or, Bool.or_false, if_true,
      Bool.false_eq_true, if_false, List.filter_nil]
    rw [encFkvs_ok h ci ti.keyType _ ?hk ?hv]
    case hk =>
      intro p hp
      have hp2 := (List.mem_filter.mp hp).1
      have hpz := (kStructSfiPairs_perm h ti fields).mem_iff.mp hp2
      rcases p with ⟨a, b⟩
      exact hkey a (List.of_mem_zip hpz).1
    case hv =>
      intro p hp
      obtain ⟨hp2, hkeep⟩ := List.mem_filter.mp hp
      have hpz := (kStructSfiPairs_perm h ti fields).mem_iff.mp hp2
      refine hvals p hpz ?_
      revert hkeep
      cases (p.1.omitEmpty && isEmptyValue h.RecursiveEmptyCheck p.2) <;> simp
    rw [encMfKVs]
    simp [EncRes.seq]

/-- Witness for C4: a struct with an empty omit-empty field and a
non-empty field encodes successfully in map mode. -/
theorem struct_map_mode_spec_witness :
    (encodeValue {} [] (.vStruct { sfi := [⟨"x", true⟩, ⟨"y", false⟩] }
      [Value.vInt 0, Value.vInt 5] [])).isOk = true := by
  obtain ⟨ord, hperm, hsort, hdecl, hout⟩ :=
    struct_map_mode_spec {} [] { sfi := [⟨"x", true⟩, ⟨"y", false⟩] }
      [Value.vInt 0, Value.vInt 5] []
      (by decide) (by decide)
      (by intro si hsi; fin_cases hsi <;> simp [encStructFieldKey, EncRes.isOk])
      (by intro p hp _; fin_cases hp <;> simp [encodeValue, EncRes.isOk])
  rw [hout]
  rfl

/-- The specification-level canonical map key: the comparand that the
canonical sort orders by, one constructor per key kind.  `cenc` holds the
out-of-band encoding of a key with no natural sort order. -/
inductive CanonKey where
  | cbool (b : Bool)
  | cstr (s : String)
  | cuint (n : Nat)
  | cint (i : Int)
  | cf32 (f : Int)
  | cf64 (f : Int)
  | ctime (t : Int)
  | cenc (ops : List WireOp)
deriving Repr

/-- The canonical comparand of a map key under a key kind: bool, string,
unsigned, signed, float and time keys yield their natural comparand; any
other kind yields the key's out-of-band encoding by the same engine (a
fresh side encoder with an empty cycle stack). -/
def canonKeyOf (h : EncodeOptions) : KKind → Value → CanonKey
  | .kbool, k => .cbool (keyBool k)
  | .kstring, k => .cstr (keyString k)
  | .kuint, k => .cuint (keyUint k)
  | .kint, k => .cint (keyInt k)
  | .kfloat32, k => .cf32 (keyFloat k)
  | .kfloat64, k => .cf64 (keyFloat k)
  | .ktime, k => .ctime (keyTime k)
  | .kother, k => .cenc (encodeValue h [] k).out

/-- What the canonical map encoder emits for a key: its primitive
operation, or the spliced pre-encoded byte sequence for the out-of-band
case. -/
def canonKeyOps : CanonKey → List WireOp
  | .cbool b => [.wBool b]
  | .cstr s => [.wString s]
  | .cuint n => [.wUint n]
  | .cint i => [.wInt i]
  | .cf32 f => [.wFloat32 f]
  | .cf64 f => [.wFloat64 f]
  | .ctime t => [.wTime t]
  | .cenc ops => ops

/-- The key-kind-specific canonical order: booleans with false before
true, lexicographic byte order for strings, natural numeric order for
unsigned/signed/float keys, chronological order for timestamps, and
lexicographic comparison of the encoded byte sequences for out-of-band
keys.  Comparands of different kinds never meet in one map. -/
def canonKeyLe : CanonKey → CanonKey → Prop
  | .cbool a, .cbool b => a ≤ b
  | .cstr a, .cstr b => a ≤ b
  | .cuint a, .cuint b => a ≤ b
  | .cint a, .cint b => a ≤ b
  | .cf32 a, .cf32 b => a ≤ b
  | .cf64 a, .cf64 b => a ≤ b
  | .ctime a, .ctime b => a ≤ b
  | .cenc a, .cenc b => a ≤ b
  | _, _ => False

theorem encCanonKVs_ok (h : EncodeOptions) (ci : List Nat) :
    ∀ l : List (List WireOp × Value), (∀ p ∈ l, (encodeValue h ci p.2).isOk = true) →
      encCanonKVs h ci l = .ok (l.flatMap fun p =>
        .wMapElemKey :: p.1 ++ .wMapElemValue :: (encodeValue h ci p.2).out) := by
  intro l
  induction l with
  | nil =>
    intro _
    rw [encCanonKVs]
    simp
  | cons p rest ih =>
    intro hok
    obtain ⟨o, ho⟩ := EncRes.isOk_iff.mp (hok p (by simp))
    rw [encCanonKVs]
    rw [ih fun q hq => hok q (by simp [hq])]
    simp [EncRes.seq, ho, EncRes.out]

theorem canonKeysPre_ok (h : EncodeOptions) :
    ∀ entries : List (Value × Value),
      (∀ kv ∈ entries, (encodeValue h [] kv.1).isOk = true) →
      canonKeysPre h entries = .ok (entries.map fun kv => (encodeValue h [] kv.1).out) := by
  intro entries
  induction entries with
  | nil =>
    intro _
    rw [canonKeysPre]
    rfl
  | cons kv rest ih =>
    intro hok
    obtain ⟨o, ho⟩ := EncRes.isOk_iff.mp (hok kv (by simp))
    rw [canonKeysPre]
    rw [ih fun q hq => hok q (by simp [hq])]
    simp [ho, EncRes.out]

theorem zip_map_self {α β : Type} (f : α → β) :
    ∀ l : List α, ((l.map f).zip l).map (fun p => (p.1, p.2)) = l.map fun x => (f x, x) := by
  intro l
  induction l with
  | nil => rfl
  | cons x xs ih => simp [ih]

theorem zip_map_fst_snd {β : Type} (f : Value × Value → β) :
    ∀ l : List (Value × Value),
      ((l.map f).zip l).map (fun p => (p.1, p.2.2)) = l.map fun kv => (f kv, kv.2) := by
  intro l
  induction l with
  | nil => rfl
  | cons x xs ih => simp [ih]

theorem mergeSort_pairwise_decide {α β : Type} [LinearOrder β] (f : α → β) (l : List α) :
    (l.mergeSort fun a b => decide (f a ≤ f b)).Pairwise fun a b => f a ≤ f b := by
  have htrans : ∀ a b c : α, decide (f a ≤ f b) = true → decide (f b ≤ f c) = true →
      decide (f a ≤ f c) = true := by
    intro a b c hab hbc
    simp only [decide_eq_true_eq] at *
    exact le_trans hab hbc
  have htotal : ∀ a b : α, (decide (f a ≤ f b) || decide (f b ≤ f a)) = true := by
    intro a b
    simp only [Bool.or_eq_true, decide_eq_true_eq]
    exact le_total _ _
  have hs := List.sorted_mergeSort htrans htotal l
  exact hs.imp fun hab => by simpa using hab

theorem canonPrimCase {β : Type} [LinearOrder β] (h : EncodeOptions) (ci : List Nat)
    (entries : List (Value × Value)) (f : Value → β) (g : Value → CanonKey)
    (w : Value → List WireOp)
    (hvals : ∀ kv ∈ entries, (encodeValue h ci kv.2).isOk = true)
    (hgw : ∀ k, canonKeyOps (g k) = w k)
    (hgle : ∀ a b : Value, f a ≤ f b → canonKeyLe (g a) (g b)) :
    ∃ ps : List (CanonKey × Value),
      ps.Perm (entries.map fun kv => (g kv.1, kv.2)) ∧
      ps.Pairwise (fun a b => canonKeyLe a.1 b.1) ∧
      encCanonKVs h ci ((entries.mergeSort fun a b => decide (f a.1 ≤ f b.1)).map
        fun kv => (w kv.1, kv.2)) =
        .ok (ps.flatMap fun p =>
          .wMapElemKey :: canonKeyOps p.1 ++ .wMapElemValue :: (encodeValue h ci p.2).out) := by
  refine ⟨(entries.mergeSort fun a b => decide (f a.1 ≤ f b.1)).map fun kv => (g kv.1, kv.2),
    ?_, ?_, ?_⟩
  · exact (List.mergeSort_perm entries _).map _
  · have hp := mergeSort_pairwise_decide (fun kv : Value × Value => f kv.1) entries
    exact hp.map _ fun a b hab => hgle _ _ hab
  · rw [encCanonKVs_ok h ci _ ?hv]
    case hv =>
      intro q hq
      obtain ⟨kv, hkv, rfl⟩ := List.mem_map.mp hq
      exact hvals kv (List.mem_mergeSort.mp hkv)
    rw [List.flatMap_map, List.flatMap_map]
    simp [hgw]

theorem kMap_canonical_out (h : EncodeOptions) (ci : List Nat) (kk : KKind)
    (entries : List (Value × Value)) (X : List WireOp)
    (hc : h.Canonical = true) (hne : entries ≠ [])
    (hm : kMapCanonical h ci kk entries = .ok X) :
    encodeValue h ci (.vMap kk (some entries)) =
      .ok ([.wMapStart entries.length] ++ X ++ [.wMapEnd]) := by
  have hne' : ¬entries.length = 0 := by simpa [List.length_eq_zero] using hne
  simp [encodeValue, kMap, hc, hne', hm, EncRes.seq]

/-- C2: for every map encoded with the canonical option, all keys are
captured and the key/value pairs are emitted in sorted key order: the
emitted pair list is a permutation of the map's entries (tagged with
their canonical comparands) that is pairwise ordered by the
key-kind-specific comparator — booleans false before true, natural
numeric order for unsigned/signed/float keys, lexicographic byte order
for string keys, chronological order for time keys, and for every other
key kind each key is first serialized to a byte sequence by a fresh run
of the same engine and the keys ordered by lexicographic comparison of
those encoded sequences (`canonKeyOf`/`canonKeyLe`); each emitted pair
is the key's canonical operations followed by the value's encoding. -/
theorem canonical_map_spec (h : EncodeOptions) (ci : List Nat) (kk : KKind)
    (entries : List (Value × Value))
    (hcanon : h.Canonical = true)
    (hvals : ∀ kv ∈ entries, (encodeValue h ci kv.2).isOk = true)
    (hkeys : kk = .kother → ∀ kv ∈ entries, (encodeValue h [] kv.1).isOk = true) :
    ∃ ps : List (CanonKey × Value),
      ps.Perm (entries.map fun kv => (canonKeyOf h kk kv.1, kv.2)) ∧
      ps.Pairwise (fun a b => canonKeyLe a.1 b.1) ∧
      encodeValue h ci (.vMap kk (some entries)) =
        .ok ([.wMapStart entries.length] ++
          (ps.flatMap fun p =>
            .wMapElemKey :: canonKeyOps p.1 ++ .wMapElemValue :: (encodeValue h ci p.2).out) ++
          [.wMapEnd]) := by
  by_cases hnil : entries = []
  · subst hnil
    refine ⟨[], by simp, by simp, ?_⟩
    simp [encodeValue, kMap, EncRes.seq]
  cases kk with
  | kbool =>
    have hcomp : (fun a b : Value × Value => boolLe (keyBool a.1) (keyBool b.1)) =
        fun a b : Value × Value => decide (keyBool a.1 ≤ keyBool b.1) := by
      funext a b
      cases keyBool a.1 <;> cases keyBool b.1 <;> decide
    obtain ⟨ps, hperm, hsort, hout⟩ := canonPrimCase h ci entries keyBool
      (fun k => CanonKey.cbool (keyBool k)) (fun k => [WireOp.wBool (keyBool k)]) hvals
      (fun k => rfl) (fun a b hab => by simpa [canonKeyLe] using hab)
    refine ⟨ps, hperm, hsort, ?_⟩
    refine kMap_canonical_out h ci _ entries _ hcanon hnil ?_
    rw [kMapCanonical, hcomp]
    exact hout
  | kstring =>
    obtain ⟨ps, hperm, hsort, hout⟩ := canonPrimCase h ci entries keyString
      (fun k => CanonKey.cstr (keyString k)) (fun k => [WireOp.wString (keyString k)]) hvals
      (fun k => rfl) (fun a b hab => by simpa [canonKeyLe] using hab)
    refine ⟨ps, hperm, hsort, ?_⟩
    refine kMap_canonical_out h ci _ entries _ hcanon hnil ?_
    rw [kMapCanonical]
    exact hout
  | kuint =>
    obtain ⟨ps, hperm, hsort, hout⟩ := canonPrimCase h ci entries keyUint
      (fun k => CanonKey.cuint (keyUint k)) (fun k => [WireOp.wUint (keyUint k)]) hvals
      (fun k => rfl) (fun a b hab => by simpa [canonKeyLe] using hab)
    refine ⟨ps, hperm, hsort, ?_⟩
    refine kMap_canonical_out h ci _ entries _ hcanon hnil ?_
    rw [kMapCanonical]
    exact hout
  | kint =>
    obtain ⟨ps, hperm, hsort, hout⟩ := canonPrimCase h ci entries keyInt
      (fun k => CanonKey.cint (keyInt k)) (fun k => [WireOp.wInt (keyInt k)]) hvals
      (fun k => rfl) (fun a b hab => by simpa [canonKeyLe] using hab)
    refine ⟨ps, hperm, hsort, ?_⟩
    refine kMap_canonical_out h ci _ entries _ hcanon hnil ?_
    rw [kMapCanonical]
    exact hout
  | kfloat32 =>
    obtain ⟨ps, hperm, hsort, hout⟩ := canonPrimCase h ci entries keyFloat
      (fun k => CanonKey.cf32 (keyFloat k)) (fun k => [WireOp.wFloat32 (keyFloat k)]) hvals
      (fun k => rfl) (fun a b hab => by simpa [canonKeyLe] using hab)
    refine ⟨ps, hperm, hsort, ?_⟩
    refine kMap_canonical_out h ci _ entries _ hcanon hnil ?_
    rw [kMapCanonical]
    exact hout
  | kfloat64 =>
    obtain ⟨ps, hperm, hsort, hout⟩ := canonPrimCase h ci entries keyFloat
      (fun k => CanonKey.cf64 (keyFloat k)) (fun k => [WireOp.wFloat64 (keyFloat k)]) hvals
      (fun k => rfl) (fun a b hab => by simpa [canonKeyLe] using hab)
    refine ⟨ps, hperm, hsort, ?_⟩
    refine kMap_canonical_out h ci _ entries _ hcanon hnil ?_
    rw [kMapCanonical]
    exact hout
  | ktime =>
    obtain ⟨ps, hperm, hsort, hout⟩ := canonPrimCase h ci entries keyTime
      (fun k => CanonKey.ctime (keyTime k)) (fun k => [WireOp.wTime (keyTime k)]) hvals
      (fun k => rfl) (fun a b hab => by simpa [canonKeyLe] using hab)
    refine ⟨ps, hperm, hsort, ?_⟩
    refine kMap_canonical_out h ci _ entries _ hcanon hnil ?_
    rw [kMapCanonical]
    exact hout
  | kother =>
    have hk := hkeys rfl
    have htr : canonKeysPre h entries =
        .ok (entries.map fun kv => (encodeValue h [] kv.1).out) :=
      canonKeysPre_ok h entries hk
    have hzip : (((entries.map fun kv => (encodeValue h [] kv.1).out).zip entries).map
        fun p => (p.1, p.2.2)) =
        entries.map fun kv => ((encodeValue h [] kv.1).out, kv.2) :=
      zip_map_fst_snd _ entries
    refine ⟨((entries.map fun kv => ((encodeValue h [] kv.1).out, kv.2)).mergeSort
        fun a b => wireLexLe a.1 b.1).map fun p => (CanonKey.cenc p.1, p.2), ?_, ?_, ?_⟩
    · have h1 := (List.mergeSort_perm
        (entries.map fun kv => ((encodeValue h [] kv.1).out, kv.2))
        fun a b => wireLexLe a.1 b.1).map
        fun p : List WireOp × Value => (CanonKey.cenc p.1, p.2)
      simpa [List.map_map, Function.comp] using h1
    · have hp := mergeSort_pairwise_decide (fun p : List WireOp × Value => p.1)
        (entries.map fun kv => ((encodeValue h [] kv.1).out, kv.2))
      have hp' : ((entries.map fun kv => ((encodeValue h [] kv.1).out, kv.2)).mergeSort
          fun a b => wireLexLe a.1 b.1).Pairwise
          (fun a b : List WireOp × Value => a.1 ≤ b.1) := hp
      exact hp'.map _ fun a b hab => by simpa [canonKeyLe] using hab
    · refine kMap_canonical_out h ci _ entries _ hcanon hnil ?_
      rw [kMapCanonical]
      rw [htr]
      dsimp only
      rw [hzip]
      rw [encCanonKVs_ok h ci _ ?hv]
      case hv =>
        intro q hq
        have hq2 := List.mem_mergeSort.mp hq
        obtain ⟨kv, hkv, rfl⟩ := List.mem_map.mp hq2
        exact hvals kv hkv
      rw [List.flatMap_map]
      simp [canonKeyOps]

/-- Witness for C2: a two-entry unsigned-key map in canonical mode
encodes successfully. -/
theorem canonical_map_spec_witness :
    (encodeValue { Canonical := true } []
      (.vMap .kuint (some [(.vUint 3, .vString "c"), (.vUint 1, .vString "a")]))).isOk = true := by
  obtain ⟨ps, hperm, hsort, hout⟩ := canonical_map_spec { Canonical := true } [] .kuint
    [(.vUint 3, .vString "c"), (.vUint 1, .vString "a")] rfl
    (by intro kv hkv; fin_cases hkv <;> simp [encodeValue, EncRes.isOk])
    (by intro hko; exact absurd hko (by decide))
  rw [hout]
  rfl
